import Mathlib

/-!
Verification of the resilient scrape-and-summarize pipeline in
`src/script.ts` (agent-scrape): the retry/backoff executor
(`retryWithBackoff`), the rate limiter (`RateLimiter`), the line
deduplication of the content extractor (`removeDuplicateLines`) and the
batch orchestrator (`summarizeBatch` / `processUrl`).

The TypeScript is shallowly embedded: stateful code becomes explicit state
passing, the single-threaded cooperative event loop becomes a step relation
on an agenda of timed events, fallible code returns `Except`, and the
external collaborators (browser navigation, DOM evaluation, the language
model, the WHATWG URL parser) become function parameters, since the code
under study only branches on their results.
-/

set_option maxRecDepth 8000

namespace AgentScrape

/-! ## Errors

`class SummarizerError extends Error { message, code, retryable }`.
Any other thrown value is modelled as a plain JavaScript `Error`, which
carries only a message and is not an `instanceof SummarizerError`. -/

/-- An error thrown inside the pipeline: either a `SummarizerError`
(message, machine-readable code, `retryable` flag) or any other JavaScript
error, carrying only a message. -/
inductive JsError where
  | summarizer (message code : String) (retryable : Bool)
  | plain (message : String)
deriving DecidableEq, Repr

/-- Model of `error.message`, defined on both error shapes. -/
def JsError.message : JsError → String
  | .summarizer m _ _ => m
  | .plain m => m

/-- The guard `error instanceof SummarizerError && !error.retryable` from
`retryWithBackoff`: only a `SummarizerError` explicitly marked
non-retryable short-circuits the retry loop. -/
def JsError.nonRetryable : JsError → Bool
  | .summarizer _ _ r => !r
  | .plain _ => false

/-! ## The backoff executor `retryWithBackoff`

`retryWithBackoff(fn, { maxRetries, baseDelay, operation })` runs
`fn` in a loop `for (let attempt = 0; attempt <= maxRetries; attempt++)`.
The operation is modelled as `fn : Nat → Except JsError T`, giving the
outcome of its `i`-th invocation; the trace records the final outcome, the
number of invocations, and the sleeps performed (in ms, in order). -/

/-- Trace of one `retryWithBackoff` run. -/
structure RetryTrace (T : Type) where
  result : Except JsError T
  invocations : Nat
  delays : List Nat
deriving Repr

/-- Message of the terminal error thrown after the loop:
`` `${operation} failed after ${maxRetries + 1} attempts: ${lastError?.message}` ``. -/
def exhaustedMessage (operation : String) (maxRetries : Nat) (lastError : Option JsError) : String :=
  operation ++ " failed after " ++ toString (maxRetries + 1) ++ " attempts: " ++
    (match lastError with
     | some e => e.message
     | none => "undefined")

/-- The terminal `SummarizerError(..., 'MAX_RETRIES_EXCEEDED', false)`. -/
def exhaustedError (operation : String) (maxRetries : Nat) (lastError : Option JsError) : JsError :=
  .summarizer (exhaustedMessage operation maxRetries lastError) "MAX_RETRIES_EXCEEDED" false

/-- The retry loop, structurally recursing on `remaining = maxRetries - attempt`.
On each iteration: invoke `fn attempt`; on success return; on a
non-retryable error re-throw it unchanged; otherwise, if attempts remain,
sleep `baseDelay * 2 ^ attempt` and continue, else throw `exhaustedError`. -/
def retryAux {T : Type} (fn : Nat → Except JsError T) (maxRetries baseDelay : Nat)
    (operation : String) : Nat → Nat → RetryTrace T
  | attempt, 0 =>
    match fn attempt with
    | .ok v => ⟨.ok v, 1, []⟩
    | .error e =>
      if e.nonRetryable then ⟨.error e, 1, []⟩
      else ⟨.error (exhaustedError operation maxRetries (some e)), 1, []⟩
  | attempt, r + 1 =>
    match fn attempt with
    | .ok v => ⟨.ok v, 1, []⟩
    | .error e =>
      if e.nonRetryable then ⟨.error e, 1, []⟩
      else
        let rest := retryAux fn maxRetries baseDelay operation (attempt + 1) r
        ⟨rest.result, rest.invocations + 1, baseDelay * 2 ^ attempt :: rest.delays⟩

/-- Model of `retryWithBackoff(fn, { maxRetries, baseDelay, operation })`. -/
def retryWithBackoff {T : Type} (fn : Nat → Except JsError T) (maxRetries baseDelay : Nat)
    (operation : String) : RetryTrace T :=
  retryAux fn maxRetries baseDelay operation 0 maxRetries

/-- An operation is invoked at least once on every path of the loop. -/
theorem retryAux_invocations_pos {T : Type} (fn : Nat → Except JsError T)
    (maxRetries baseDelay : Nat) (operation : String) (attempt r : Nat) :
    1 ≤ (retryAux fn maxRetries baseDelay operation attempt r).invocations := by
  cases r with
  | zero =>
    simp only [retryAux]
    cases fn attempt with
    | ok v => simp
    | error e =>
      by_cases h : e.nonRetryable <;> simp [h]
  | succ r =>
    simp only [retryAux]
    cases fn attempt with
    | ok v => simp
    | error e =>
      by_cases h : e.nonRetryable <;> simp [h]

/-- On an operation that fails with a retryable error at every attempt, the
loop performs all its iterations: the result of entering the loop at
`attempt` with `r` iterations left is the exhausted-retries error built
from the final attempt's error, `r + 1` invocations, and the geometric
delay sequence for attempts `attempt, attempt+1, …, attempt+r-1`. -/
theorem retryAux_always_fails {T : Type} (fn : Nat → Except JsError T)
    (maxRetries baseDelay : Nat) (operation : String) (errs : Nat → JsError)
    (hfail : ∀ i, fn i = .error (errs i)) (hretry : ∀ i, (errs i).nonRetryable = false) :
    ∀ r attempt, retryAux fn maxRetries baseDelay operation attempt r =
      ⟨.error (exhaustedError operation maxRetries (some (errs (attempt + r)))), r + 1,
        (List.range r).map (fun i => baseDelay * 2 ^ (attempt + i))⟩ := by
  intro r
  induction r with
  | zero =>
    intro attempt
    simp [retryAux, hfail attempt, hretry attempt]
  | succ r ih =>
    intro attempt
    simp only [retryAux, hfail attempt, hretry attempt, Bool.false_eq_true, if_false,
      ih (attempt + 1), RetryTrace.mk.injEq]
    refine ⟨?_, trivial, ?_⟩
    · rw [show attempt + 1 + r = attempt + (r + 1) from by omega]
    · rw [List.range_succ_eq_map, List.map_cons, List.map_map]
      rw [List.cons.injEq]
      constructor
      · simp
      · apply List.map_congr_left
        intro i _
        simp only [Function.comp_apply]
        rw [show attempt + 1 + i = attempt + i.succ from by omega]

/-- Helper: on an operation failing retryably at every attempt, the whole
executor performs `maxRetries + 1` invocations. -/
theorem retryWithBackoff_always_fails {T : Type} (fn : Nat → Except JsError T)
    (n d : Nat) (operation : String) (errs : Nat → JsError)
    (hfail : ∀ i, fn i = .error (errs i)) (hretry : ∀ i, (errs i).nonRetryable = false) :
    retryWithBackoff fn n d operation =
      ⟨.error (exhaustedError operation n (some (errs n))), n + 1,
        (List.range n).map (fun i => d * 2 ^ i)⟩ := by
  have h := retryAux_always_fails fn n d operation errs hfail hretry n 0
  rw [retryWithBackoff, h]
  simp

/-- Claim C4: `retryWithBackoff` with `maxRetries = n` and `baseDelay = d`, on
an operation that fails retryably at every attempt, invokes the operation
exactly `n + 1` times (attempt indices `0..n`), sleeps exactly `d * 2 ^ i`
after the failure of attempt `i` when attempts remain (delay sequence
`d, 2d, 4d, …`), and finally throws the `MAX_RETRIES_EXCEEDED`
`SummarizerError`, itself non-retryable, whose message embeds the attempt
count `n + 1` and the last underlying error's message. -/
theorem retryWithBackoff_exhausts_attempts_and_delays {T : Type}
    (fn : Nat → Except JsError T) (n d : Nat) (operation : String) (errs : Nat → JsError)
    (hfail : ∀ i, fn i = .error (errs i)) (hretry : ∀ i, (errs i).nonRetryable = false) :
    retryWithBackoff fn n d operation =
      ⟨.error (.summarizer
          (operation ++ " failed after " ++ toString (n + 1) ++ " attempts: " ++ (errs n).message)
          "MAX_RETRIES_EXCEEDED" false),
        n + 1, (List.range n).map (fun i => d * 2 ^ i)⟩ := by
  rw [retryWithBackoff_always_fails fn n d operation errs hfail hretry]
  rfl

/-- Witness for C4: `maxRetries = 2`, `baseDelay = 100`, an operation that
always throws a plain error; 3 invocations, sleeps `[100, 200]`, terminal
wrapped error. -/
theorem retryWithBackoff_exhausts_attempts_and_delays_witness :
    retryWithBackoff (fun _ => (.error (.plain ("boom")) : Except JsError String))
        2 100 ("Summarization") =
      ⟨.error (.summarizer ("Summarization failed after 3 attempts: boom")
          "MAX_RETRIES_EXCEEDED" false), 3, [100, 200]⟩ := by
  have h := retryWithBackoff_exhausts_attempts_and_delays
    (fun _ => (.error (.plain ("boom")) : Except JsError String)) 2 100 ("Summarization")
    (fun _ => .plain ("boom")) (fun _ => rfl) (fun _ => rfl)
  rw [h]
  rfl

/-- Claim C6: if the first attempt fails with a `SummarizerError` explicitly
marked `retryable = false`, `retryWithBackoff` invokes the operation exactly
once, performs no sleep, and re-throws that original error unchanged (not
wrapped). -/
theorem retryWithBackoff_nonretryable_single_attempt {T : Type}
    (fn : Nat → Except JsError T) (n d : Nat) (operation : String) (msg code : String)
    (h0 : fn 0 = .error (.summarizer msg code false)) :
    retryWithBackoff fn n d operation = ⟨.error (.summarizer msg code false), 1, []⟩ := by
  cases n with
  | zero => simp [retryWithBackoff, retryAux, h0, JsError.nonRetryable]
  | succ n => simp [retryWithBackoff, retryAux, h0, JsError.nonRetryable]

/-- Witness for C6: an `HTTP_ERROR` marked non-retryable is re-thrown after
a single invocation with no sleeps, despite `maxRetries = 3`. -/
theorem retryWithBackoff_nonretryable_single_attempt_witness :
    retryWithBackoff
        (fun _ => (.error (.summarizer ("HTTP error 404: Not Found") "HTTP_ERROR" false) :
          Except JsError String)) 3 2000 ("Navigating to https://example.com") =
      ⟨.error (.summarizer ("HTTP error 404: Not Found") "HTTP_ERROR" false), 1, []⟩ :=
  retryWithBackoff_nonretryable_single_attempt _ 3 2000 _ _ _ rfl

/-- Claim C9: every error that is not a `SummarizerError` carrying
`retryable = false` — in particular any plain `Error` — is treated as
retryable by default: if the first attempt fails with such an error and
attempts remain (`maxRetries ≥ 1`), the operation is invoked again, so at
least twice in total. -/
theorem retryWithBackoff_default_retryable {T : Type}
    (fn : Nat → Except JsError T) (n d : Nat) (operation : String) (e : JsError)
    (h0 : fn 0 = .error e) (hnr : e.nonRetryable = false) (hn : 1 ≤ n) :
    2 ≤ (retryWithBackoff fn n d operation).invocations := by
  obtain ⟨m, rfl⟩ : ∃ m, n = m + 1 := ⟨n - 1, by omega⟩
  have hstep : (retryWithBackoff fn (m + 1) d operation).invocations
      = (retryAux fn (m + 1) d operation 1 m).invocations + 1 := by
    rw [retryWithBackoff]
    simp [retryAux, h0, hnr]
  rw [hstep]
  have h := retryAux_invocations_pos fn (m + 1) d operation 1 m
  omega

/-- Witness for C9: a plain `Error` with `maxRetries = 1` leads to a second
invocation. -/
theorem retryWithBackoff_default_retryable_witness :
    2 ≤ (retryWithBackoff (fun _ => (.error (.plain ("socket hang up")) : Except JsError String))
      1 100 ("Extracting text")).invocations :=
  retryWithBackoff_default_retryable _ 1 100 _ (.plain ("socket hang up")) rfl rfl (by omega)

/-! ## `processUrl` retry configuration (claim C2)

`processUrl` wraps the whole per-URL sequence (navigate, extract both text
and metadata, summarize) in a single `retryWithBackoff` call configured as
`{ maxRetries: options.maxRetries || 3, baseDelay: options.retryDelay || 2000 }`.
JavaScript `||` substitutes the default for every falsy left operand, hence
for `0` as well as for `undefined`. -/

/-- JavaScript `x || d` on an optional numeric option: `undefined` and `0`
are both falsy and select the default `d`. -/
def jsOrNat : Option Nat → Nat → Nat
  | none, d => d
  | some v, d => if v = 0 then d else v

/-- The `SummaryOptions` fields read by the modelled control flow. The
presentation-only fields (`length`, `format`, `includeMetadata`,
`saveToFile`, `batch`, `followLinks`) shape prompts and output text but not
the retry/batch control flow studied here. -/
structure SummaryOptions where
  comparative : Bool := false
  maxRetries : Option Nat := none
  retryDelay : Option Nat := none
deriving Repr

/-- The retry trace of one `processUrl` call whose per-attempt outcome is
`fn`: `retryWithBackoff(..., { maxRetries: options.maxRetries || 3,
baseDelay: options.retryDelay || 2000, operation: `Processing ${url}` })`. -/
def processUrlTrace {T : Type} (options : SummaryOptions) (url : String)
    (fn : Nat → Except JsError T) : RetryTrace T :=
  retryWithBackoff fn (jsOrNat options.maxRetries 3) (jsOrNat options.retryDelay 2000)
    ("Processing " ++ url)

/-- Claim C2 (the code deviates at `maxRetries = 0`): a per-URL operation that
fails retryably on every attempt is invoked **4** times when
`SummaryOptions.maxRetries = 0` — not once as specified — because
`options.maxRetries || 3` treats the configured `0` as falsy and substitutes
the default `3`; on the rest of the recognized range, `n ∈ [1, 10]`, the
operation is invoked `n + 1` times as claimed. -/
theorem processUrl_maxRetries_zero_invokes_four {T : Type} (url : String)
    (fn : Nat → Except JsError T) (errs : Nat → JsError)
    (hfail : ∀ i, fn i = .error (errs i)) (hretry : ∀ i, (errs i).nonRetryable = false) :
    (processUrlTrace { maxRetries := some 0 } url fn).invocations = 4 ∧
    ∀ n, 1 ≤ n → n ≤ 10 →
      (processUrlTrace { maxRetries := some n } url fn).invocations = n + 1 := by
  constructor
  · rw [processUrlTrace]
    rw [show jsOrNat (some 0) 3 = 3 from rfl]
    rw [retryWithBackoff_always_fails _ 3 _ _ errs hfail hretry]
  · intro n h1 _
    rw [processUrlTrace]
    rw [show jsOrNat (some n) 3 = if n = 0 then 3 else n from rfl]
    rw [if_neg (by omega)]
    rw [retryWithBackoff_always_fails _ n _ _ errs hfail hretry]

/-- Witness for C2's failing input: `maxRetries = 0` with a permanently
retryably-failing operation yields 4 invocations. -/
theorem processUrl_maxRetries_zero_invokes_four_witness :
    (processUrlTrace { maxRetries := some 0 } ("https://example.com")
      (fun _ => (.error (.plain ("navigation failed")) : Except JsError String))).invocations = 4 :=
  (processUrl_maxRetries_zero_invokes_four ("https://example.com") _
    (fun _ => .plain ("navigation failed")) (fun _ => rfl) (fun _ => rfl)).1

/-! ## `removeDuplicateLines` (claims C8, C10)

`removeDuplicateLines` splits the text on `'\n'`, filters the lines through
a stateful callback closing over a `seen` set of normalized
(trimmed, lowercased) values, and joins the kept lines with `'\n'`.
Strings are handled as their character lists; JavaScript's UTF-16
`.length`, Unicode-aware `trim`/`toLowerCase` are modelled by character
count, `Char.isWhitespace` and `Char.toLower`, which agree on the ASCII
range. -/

/-- Model of `line.trim()`: drop leading and trailing whitespace. -/
def trimChars (l : List Char) : List Char :=
  ((l.dropWhile Char.isWhitespace).reverse.dropWhile Char.isWhitespace).reverse

/-- Model of `line.trim().toLowerCase()`, the normalized form used by the seen-set. -/
def normalizeLine (l : List Char) : List Char :=
  (trimChars l).map Char.toLower

/-- Model of `text.split('\n')`. -/
def splitLines : List Char → List (List Char)
  | [] => [[]]
  | c :: cs =>
    if c = '\n' then [] :: splitLines cs
    else
      match splitLines cs with
      | [] => [[c]]
      | p :: ps => (c :: p) :: ps

/-- Model of `lines.join('\n')`. -/
def joinLines : List (List Char) → List Char
  | [] => []
  | [p] => p
  | p :: q :: ps => p ++ '\n' :: joinLines (q :: ps)

/-- The stateful `filter` callback of `removeDuplicateLines`, with `seen`
the set of normalized values added so far: a line whose normalized form is
shorter than 30 characters is always kept; otherwise the line is dropped
when its normalized value is in `seen`, and kept (adding the value) when
not. -/
def dedupAux (seen : List (List Char)) : List (List Char) → List (List Char)
  | [] => []
  | l :: ls =>
    if (normalizeLine l).length < 30 then l :: dedupAux seen ls
    else if normalizeLine l ∈ seen then dedupAux seen ls
    else l :: dedupAux (normalizeLine l :: seen) ls

/-- Model of `removeDuplicateLines(text)`. -/
def removeDuplicateLines (text : String) : String :=
  String.mk (joinLines (dedupAux [] (splitLines text.data)))

/-- The deduplication pass as the specification words it, for comparison
with the implementation: a single forward pass in which `prev` accumulates
the list of earlier lines; a line is kept exactly when its normalized form
is shorter than 30 characters, or its normalized value has not appeared as
the normalized form of any earlier line. -/
def dedupSpecAux (prev : List (List Char)) : List (List Char) → List (List Char)
  | [] => []
  | l :: ls =>
    if (normalizeLine l).length < 30 ∨ normalizeLine l ∉ prev.map normalizeLine then
      l :: dedupSpecAux (prev ++ [l]) ls
    else
      dedupSpecAux (prev ++ [l]) ls

/-- The function `removeDuplicateLines` as the specification describes it. -/
def removeDuplicateLinesSpec (text : String) : String :=
  String.mk (joinLines (dedupSpecAux [] (splitLines text.data)))

/-- The seen-set pass and the spec's earlier-lines pass agree whenever
`seen` holds exactly the long (≥ 30) normalized values of the earlier
lines. -/
theorem dedupAux_eq_spec : ∀ (ls seen prev : List (List Char)),
    (∀ v, v ∈ seen ↔ (30 ≤ v.length ∧ v ∈ prev.map normalizeLine)) →
    dedupAux seen ls = dedupSpecAux prev ls := by
  intro ls
  induction ls with
  | nil => intro seen prev _; rfl
  | cons l ls ih =>
    intro seen prev h
    by_cases hshort : (normalizeLine l).length < 30
    · simp only [dedupAux, dedupSpecAux]
      rw [if_pos hshort, if_pos (Or.inl hshort)]
      congr 1
      apply ih
      intro v
      rw [h v]
      simp only [List.map_append, List.map_cons, List.map_nil, List.mem_append,
        List.mem_singleton, List.mem_cons, List.not_mem_nil, or_false]
      constructor
      · rintro ⟨h30, hv⟩
        exact ⟨h30, Or.inl hv⟩
      · rintro ⟨h30, hv | rfl⟩
        · exact ⟨h30, hv⟩
        · omega
    · by_cases hseen : normalizeLine l ∈ seen
      · have hprev : normalizeLine l ∈ prev.map normalizeLine := ((h _).1 hseen).2
        simp only [dedupAux, dedupSpecAux]
        rw [if_neg hshort, if_pos hseen, if_neg (by simp [hshort, hprev])]
        apply ih
        intro v
        rw [h v]
        simp only [List.map_append, List.map_cons, List.map_nil, List.mem_append,
          List.mem_singleton, List.mem_cons, List.not_mem_nil, or_false]
        constructor
        · rintro ⟨h30, hv⟩
          exact ⟨h30, Or.inl hv⟩
        · rintro ⟨h30, hv | rfl⟩
          · exact ⟨h30, hv⟩
          · exact ⟨h30, hprev⟩
      · have hprev : normalizeLine l ∉ prev.map normalizeLine :=
          fun hm => hseen ((h _).2 ⟨by omega, hm⟩)
        simp only [dedupAux, dedupSpecAux]
        rw [if_neg hshort, if_neg hseen, if_pos (Or.inr hprev)]
        congr 1
        apply ih
        intro v
        simp only [List.mem_cons, h v, List.map_append, List.map_cons, List.map_nil,
          List.mem_append, List.mem_singleton, List.not_mem_nil, or_false]
        constructor
        · rintro (rfl | ⟨h30, hv⟩)
          · exact ⟨by omega, Or.inr rfl⟩
          · exact ⟨h30, Or.inl hv⟩
        · rintro ⟨h30, hv | rfl⟩
          · exact Or.inr ⟨h30, hv⟩
          · exact Or.inl rfl

/-- The deduplication pass keeps an ordered sublist of the input lines. -/
theorem dedupAux_sublist : ∀ (ls seen : List (List Char)), List.Sublist (dedupAux seen ls) ls := by
  intro ls
  induction ls with
  | nil => intro seen; simp [dedupAux]
  | cons l ls ih =>
    intro seen
    simp only [dedupAux]
    by_cases h1 : (normalizeLine l).length < 30
    · rw [if_pos h1]
      exact (ih seen).cons₂ l
    · rw [if_neg h1]
      by_cases h2 : normalizeLine l ∈ seen
      · rw [if_pos h2]
        exact (ih seen).cons l
      · rw [if_neg h2]
        exact (ih _).cons₂ l

/-- Claim C8: `removeDuplicateLines` is exactly the specified single forward
pass: lines whose trimmed lowercased form is shorter than 30 characters are
always kept (even when repeated); a line whose normalized form has at least
30 characters is dropped exactly when that normalized value appeared as the
normalized form of an earlier line; and the kept lines form an ordered
sublist of the input lines, so first occurrences and relative order are
preserved. -/
theorem removeDuplicateLines_matches_spec (text : String) :
    removeDuplicateLines text = removeDuplicateLinesSpec text ∧
    List.Sublist (dedupAux [] (splitLines text.data)) (splitLines text.data) := by
  constructor
  · rw [removeDuplicateLines, removeDuplicateLinesSpec,
      dedupAux_eq_spec (splitLines text.data) [] [] (by simp)]
  · exact dedupAux_sublist _ []

/-- Splitting on `'\n'` always returns at least one piece. -/
theorem splitLines_ne_nil : ∀ l : List Char, splitLines l ≠ [] := by
  intro l
  cases l with
  | nil => simp [splitLines]
  | cons c cs =>
    simp only [splitLines]
    split
    · simp
    · split <;> simp

/-- No piece of `split('\n')` contains a newline. -/
theorem not_newline_mem_of_mem_splitLines :
    ∀ (l : List Char) (p : List Char), p ∈ splitLines l → Char.ofNat 10 ∉ p := by
  intro l
  induction l with
  | nil =>
    intro p hp
    simp only [splitLines, List.mem_singleton] at hp
    simp [hp]
  | cons c cs ih =>
    intro p hp
    by_cases hc : c = '\n'
    · rw [splitLines, if_pos hc] at hp
      rcases List.mem_cons.1 hp with rfl | hp'
      · simp
      · exact ih p hp'
    · rw [splitLines, if_neg hc] at hp
      cases hsplit : splitLines cs with
      | nil => exact absurd hsplit (splitLines_ne_nil cs)
      | cons q qs =>
        rw [hsplit] at hp
        rcases List.mem_cons.1 hp with rfl | hp'
        · intro hmem
          rcases List.mem_cons.1 hmem with h10 | hq
          · exact hc (by rw [← h10])
          · exact ih q (by rw [hsplit]; exact List.mem_cons_self q qs) hq
        · exact ih p (by rw [hsplit]; exact List.mem_cons_of_mem q hp')

/-- Splitting a newline-free piece returns the piece alone. -/
theorem splitLines_of_no_newline : ∀ p : List Char, Char.ofNat 10 ∉ p → splitLines p = [p] := by
  intro p
  induction p with
  | nil => intro _; rfl
  | cons c cs ih =>
    intro h
    have hc : c ≠ '\n' := fun hcc => h (by rw [hcc]; exact List.mem_cons_self _ _)
    rw [splitLines, if_neg hc, ih (fun hmem => h (List.mem_cons_of_mem c hmem))]

/-- Splitting `p ++ '\n' :: rest` for newline-free `p` peels off `p`. -/
theorem splitLines_append_newline :
    ∀ p : List Char, Char.ofNat 10 ∉ p →
      ∀ rest : List Char, splitLines (p ++ '\n' :: rest) = p :: splitLines rest := by
  intro p
  induction p with
  | nil =>
    intro _ rest
    simp [splitLines]
  | cons c cs ih =>
    intro h rest
    have hc : c ≠ '\n' := fun hcc => h (by rw [hcc]; exact List.mem_cons_self _ _)
    rw [List.cons_append, splitLines, if_neg hc,
      ih (fun hmem => h (List.mem_cons_of_mem c hmem)) rest]

/-- Splitting is a left inverse of joining on nonempty lists of newline-free
pieces. -/
theorem splitLines_joinLines :
    ∀ ps : List (List Char), ps ≠ [] → (∀ p ∈ ps, Char.ofNat 10 ∉ p) →
      splitLines (joinLines ps) = ps := by
  intro ps
  induction ps with
  | nil => intro h _; exact absurd rfl h
  | cons p ps ih =>
    intro _ hnl
    cases ps with
    | nil =>
      show splitLines (joinLines [p]) = [p]
      rw [joinLines]
      exact splitLines_of_no_newline p (hnl p (List.mem_cons_self _ _))
    | cons q ps' =>
      show splitLines (joinLines (p :: q :: ps')) = p :: q :: ps'
      rw [joinLines, splitLines_append_newline p (hnl p (List.mem_cons_self _ _)),
        ih (by simp) (fun x hx => hnl x (List.mem_cons_of_mem p hx))]

/-- The normalized values of length at least 30 among a line list, in
order. -/
def longNorms (ls : List (List Char)) : List (List Char) :=
  (ls.map normalizeLine).filter (fun v => decide (30 ≤ v.length))

/-- After deduplication, the long normalized values are pairwise distinct
and disjoint from the starting `seen` set. -/
theorem dedupAux_longNorms : ∀ (ls seen : List (List Char)),
    (longNorms (dedupAux seen ls)).Nodup ∧ ∀ v ∈ longNorms (dedupAux seen ls), v ∉ seen := by
  intro ls
  induction ls with
  | nil => intro seen; simp [dedupAux, longNorms]
  | cons l ls ih =>
    intro seen
    simp only [dedupAux]
    by_cases h1 : (normalizeLine l).length < 30
    · rw [if_pos h1]
      have hfilter : longNorms (l :: dedupAux seen ls) = longNorms (dedupAux seen ls) := by
        simp only [longNorms, List.map_cons, List.filter_cons]
        rw [if_neg (by simp; omega)]
      rw [hfilter]
      exact ih seen
    · rw [if_neg h1]
      by_cases h2 : normalizeLine l ∈ seen
      · rw [if_pos h2]
        exact ih seen
      · rw [if_neg h2]
        have hfilter : longNorms (l :: dedupAux (normalizeLine l :: seen) ls) =
            normalizeLine l :: longNorms (dedupAux (normalizeLine l :: seen) ls) := by
          simp only [longNorms, List.map_cons, List.filter_cons]
          rw [if_pos (by simp; omega)]
        rw [hfilter]
        obtain ⟨hnodup, hdisj⟩ := ih (normalizeLine l :: seen)
        refine ⟨List.nodup_cons.2 ⟨fun hmem => hdisj _ hmem (List.mem_cons_self _ _), hnodup⟩, ?_⟩
        intro v hv
        rcases List.mem_cons.1 hv with rfl | hv'
        · exact h2
        · exact fun hs => hdisj v hv' (List.mem_cons_of_mem _ hs)

/-- Deduplication is the identity on a line list whose long normalized
values are pairwise distinct and absent from `seen`. -/
theorem dedupAux_id_of_nodup : ∀ (ls seen : List (List Char)),
    (longNorms ls).Nodup → (∀ v ∈ longNorms ls, v ∉ seen) → dedupAux seen ls = ls := by
  intro ls
  induction ls with
  | nil => intro seen _ _; rfl
  | cons l ls ih =>
    intro seen hnodup hdisj
    simp only [dedupAux]
    by_cases h1 : (normalizeLine l).length < 30
    · rw [if_pos h1]
      have hfilter : longNorms (l :: ls) = longNorms ls := by
        simp only [longNorms, List.map_cons, List.filter_cons]
        rw [if_neg (by simp; omega)]
      rw [hfilter] at hnodup hdisj
      rw [ih seen hnodup hdisj]
    · have hfilter : longNorms (l :: ls) = normalizeLine l :: longNorms ls := by
        simp only [longNorms, List.map_cons, List.filter_cons]
        rw [if_pos (by simp; omega)]
      rw [hfilter] at hnodup hdisj
      have hhead : normalizeLine l ∉ seen := hdisj _ (List.mem_cons_self _ _)
      rw [if_neg h1, if_neg hhead]
      congr 1
      apply ih
      · exact (List.nodup_cons.1 hnodup).2
      · intro v hv
        intro hmem
        rcases List.mem_cons.1 hmem with rfl | hs
        · exact (List.nodup_cons.1 hnodup).1 hv
        · exact hdisj v (List.mem_cons_of_mem _ hv) hs

/-- Deduplication from the empty seen-set never empties a nonempty line
list: the first line is always kept. -/
theorem dedupAux_nil_ne_nil (l : List Char) (ls : List (List Char)) :
    dedupAux [] (l :: ls) ≠ [] := by
  simp only [dedupAux]
  by_cases h1 : (normalizeLine l).length < 30
  · rw [if_pos h1]
    simp
  · rw [if_neg h1, if_neg (List.not_mem_nil _)]
    simp

/-- Claim C10: `removeDuplicateLines` is idempotent: applying it to its own
output changes nothing, for every input string. -/
theorem removeDuplicateLines_idempotent (text : String) :
    removeDuplicateLines (removeDuplicateLines text) = removeDuplicateLines text := by
  show String.mk (joinLines (dedupAux []
      (splitLines (joinLines (dedupAux [] (splitLines text.data)))))) =
    String.mk (joinLines (dedupAux [] (splitLines text.data)))
  have hne : dedupAux [] (splitLines text.data) ≠ [] := by
    cases h : splitLines text.data with
    | nil => exact absurd h (splitLines_ne_nil text.data)
    | cons p ps => exact dedupAux_nil_ne_nil p ps
  have hnl : ∀ p ∈ dedupAux [] (splitLines text.data), Char.ofNat 10 ∉ p :=
    fun p hp => not_newline_mem_of_mem_splitLines text.data p
      ((dedupAux_sublist (splitLines text.data) []).subset hp)
  rw [splitLines_joinLines _ hne hnl,
    dedupAux_id_of_nodup _ [] (dedupAux_longNorms (splitLines text.data) []).1
      (fun v _ => List.not_mem_nil v)]

/-! ## The batch orchestrator `summarizeBatch` (claims C3, C5, C7)

`summarizeBatch(urls, options)` loops over `urls` strictly sequentially.
For each URL: if `isValidUrl(url)` fails, it pushes an outcome with
`error: 'Invalid URL format'` and `continue`s — skipping both `processUrl`
(hence navigation) and the `await sleep(1000)` pacing delay at the bottom
of the loop body; otherwise it awaits `processUrl` (which never throws: its
`.catch` turns any escaping error into an outcome with `error` set), pushes
the outcome and sleeps 1000 ms. After the loop it decides on comparative
synthesis and formats/saves the report.

URL syntax validation (`new URL`, an external runtime facility) is the
parameter `validUrl`; the outcome `processUrl` produces per URL is the
parameter `proc`; the comparative language-model call is the parameter
`comp`. Wall-clock metadata timestamps are abstracted to `""`. -/

/-- Model of `PageMetadata`. -/
structure PageMetadata where
  title : String
  description : String
  url : String
  timestamp : String
deriving DecidableEq, Repr

/-- Model of `BatchResult`. -/
structure BatchResult where
  url : String
  summary : String
  metadata : PageMetadata
  error : Option String
  retries : Option Nat
deriving DecidableEq, Repr

/-- Outcome of one `processUrl` call, minus the `url` field, which
`processUrl` always sets to its own argument (both in its success object
and in its `.catch` handler). -/
structure ProcOutcome where
  summary : String
  metadata : PageMetadata
  error : Option String
  retries : Option Nat
deriving DecidableEq, Repr

/-- Rebuild the `BatchResult` of `processUrl` for `u`. -/
def ProcOutcome.toResult (p : ProcOutcome) (u : String) : BatchResult :=
  ⟨u, p.summary, p.metadata, p.error, p.retries⟩

/-- The outcome `summarizeBatch` pushes for a URL failing `isValidUrl`,
built directly, with no navigation. -/
def invalidUrlOutcome (u : String) : BatchResult :=
  ⟨u, "", ⟨"", "", u, ""⟩, some ("Invalid URL format"), none⟩

/-- One iteration of the `summarizeBatch` loop: the recorded outcome,
whether `processUrl` (which begins by navigating) ran for this URL, and the
pacing sleep performed after it, if any. -/
structure UrlStep where
  outcome : BatchResult
  navigated : Bool
  sleepAfter : Option Nat
deriving DecidableEq, Repr

/-- The `for (let i = 0; i < urls.length; i++)` loop of `summarizeBatch`,
one step per URL in input order: an invalid URL yields its outcome with no
navigation and no pacing sleep (the `continue` path); a valid URL runs
`processUrl` and then `await sleep(1000)`. -/
def batchSteps (validUrl : String → Bool) (proc : String → ProcOutcome)
    (urls : List String) : List UrlStep :=
  urls.map (fun u =>
    if validUrl u then ⟨(proc u).toResult u, true, some 1000⟩
    else ⟨invalidUrlOutcome u, false, none⟩)

/-- The per-URL outcomes of a batch, in order. -/
def batchResults (validUrl : String → Bool) (proc : String → ProcOutcome)
    (urls : List String) : List BatchResult :=
  (batchSteps validUrl proc urls).map (fun s => s.outcome)

/-- Model of `results.filter(r => !r.error)`: the non-error outcomes. -/
def batchSuccesses (validUrl : String → Bool) (proc : String → ProcOutcome)
    (urls : List String) : List BatchResult :=
  (batchResults validUrl proc urls).filter (fun r => r.error.isNone)

/-- The report `summarizeBatch` formats and saves when it completes. -/
structure BatchRun where
  results : List BatchResult
  comparative : Option String
deriving DecidableEq, Repr

/-- Model of `summarizeBatch` after its loop: when `options.comparative` is set and
at least 2 non-error outcomes exist, `generateComparativeSummary` is
invoked on the non-error outcomes — with no surrounding try/catch, so its
failure propagates out of `summarizeBatch` before `formatBatchOutput` and
`saveToFileIfNeeded` run. The second component records whether the
comparative call was invoked. -/
def summarizeBatch (validUrl : String → Bool) (proc : String → ProcOutcome)
    (comp : List BatchResult → Except JsError String) (options : SummaryOptions)
    (urls : List String) : Except JsError BatchRun × Bool :=
  let successes := batchSuccesses validUrl proc urls
  if options.comparative ∧ 2 ≤ successes.length then
    match comp successes with
    | .error e => (.error e, true)
    | .ok c => (.ok ⟨batchResults validUrl proc urls, some c⟩, true)
  else (.ok ⟨batchResults validUrl proc urls, none⟩, false)

/-- A successful `processUrl` outcome usable in concrete runs. -/
def okOutcome (s : String) : ProcOutcome :=
  ⟨s, ⟨"t", "", "", ""⟩, none, none⟩

/-- Claim C3, counterexample: the second half of the claim fails: in a batch
of two valid URLs whose processing succeeds, with `comparative` requested,
a comparative call that ultimately fails makes `summarizeBatch` itself
fail — the already-collected per-URL outcomes are not delivered (no
formatting, no saving), contrary to the claim that they remain delivered. -/
theorem summarizeBatch_comparative_failure_discards_outcomes :
    (summarizeBatch (fun _ => true) (fun _ => okOutcome ("s"))
        (fun _ => .error (.summarizer ("boom") "MAX_RETRIES_EXCEEDED" false))
        { comparative := true } ["https://a.com", "https://b.com"]).1 =
      .error (.summarizer ("boom") "MAX_RETRIES_EXCEEDED" false) := by
  rfl

/-- Claim C3, amended: the trigger condition is exactly as claimed: the
comparative synthesis is invoked iff `options.comparative` is set and at
least 2 non-error outcomes exist. But when the comparative call fails, the
failure propagates out of `summarizeBatch` and the collected per-URL
outcomes are discarded, not delivered. -/
theorem summarizeBatch_comparative_iff_and_failure_propagates
    (validUrl : String → Bool) (proc : String → ProcOutcome)
    (comp : List BatchResult → Except JsError String) (options : SummaryOptions)
    (urls : List String) :
    ((summarizeBatch validUrl proc comp options urls).2 = true ↔
      (options.comparative ∧ 2 ≤ (batchSuccesses validUrl proc urls).length)) ∧
    (∀ e : JsError, comp (batchSuccesses validUrl proc urls) = .error e →
      options.comparative = true → 2 ≤ (batchSuccesses validUrl proc urls).length →
      (summarizeBatch validUrl proc comp options urls).1 = .error e) := by
  constructor
  · rw [summarizeBatch]
    by_cases h : options.comparative ∧ 2 ≤ (batchSuccesses validUrl proc urls).length
    · rw [if_pos h]
      cases comp (batchSuccesses validUrl proc urls) <;> simp [h]
    · rw [if_neg h]
      simp [h]
  · intro e hcomp hcmp hlen
    rw [summarizeBatch, if_pos ⟨hcmp, hlen⟩, hcomp]

/-- Witness for C3's amended claim: with 2 successes, `comparative := true`
and a failing comparative call, the run result is that error. -/
theorem summarizeBatch_comparative_iff_witness :
    (summarizeBatch (fun _ => true) (fun _ => okOutcome ("s"))
        (fun _ => .error (.plain ("model down"))) { comparative := true }
        ["https://a.com", "https://b.com"]).1 = .error (.plain ("model down")) :=
  (summarizeBatch_comparative_iff_and_failure_propagates (fun _ => true)
      (fun _ => okOutcome ("s")) (fun _ => .error (.plain ("model down")))
      { comparative := true } ["https://a.com", "https://b.com"]).2
    (.plain ("model down")) rfl rfl (by decide)

/-- Claim C5, counterexample: the claim fails for URLs rejected as invalid:
in the batch `["notaurl", "https://a.com"]` where the first URL fails
validation, the loop's `continue` skips the pacing sleep, so no 1000 ms
delay occurs after the invalid URL. -/
theorem batch_invalid_url_skips_pacing :
    (batchSteps (fun u => u ≠ "notaurl") (fun _ => okOutcome ("s"))
        ["notaurl", "https://a.com"]).map (fun s => s.sleepAfter) =
      [none, some 1000] := by
  rfl

/-- Claim C5, amended: URLs are processed strictly sequentially, one step per
input URL in input order; the fixed 1000 ms inter-URL pacing delay occurs
after every URL that passes validation — whether its processing succeeded
or failed — but an invalid URL is recorded and skipped immediately, with no
pacing delay. -/
theorem batch_pacing_after_validated_urls (validUrl : String → Bool)
    (proc : String → ProcOutcome) (urls : List String) :
    (batchSteps validUrl proc urls).map (fun s => s.outcome.url) = urls ∧
    (batchSteps validUrl proc urls).map (fun s => s.sleepAfter) =
      urls.map (fun u => if validUrl u then some 1000 else none) := by
  constructor
  · rw [batchSteps, List.map_map]
    have : ∀ u : String,
        ((fun s => s.outcome.url) ∘ fun u =>
          if validUrl u then UrlStep.mk ((proc u).toResult u) true (some 1000)
          else UrlStep.mk (invalidUrlOutcome u) false none) u = u := by
      intro u
      by_cases h : validUrl u <;> simp [h, ProcOutcome.toResult, invalidUrlOutcome]
    rw [List.map_congr_left (fun u _ => this u)]
    simp
  · rw [batchSteps, List.map_map]
    apply List.map_congr_left
    intro u _
    by_cases h : validUrl u <;> simp [h]

/-- Claim C7: a batch of a valid, an invalid, and a valid URL yields exactly
three outcomes in input order; the invalid URL's outcome has its `error`
field set (to `"Invalid URL format"`), no navigation runs for it and no per
-URL failure aborts the rest: the steps are exactly one per input URL, for
every behaviour `proc` of per-URL processing, including failing ones. -/
theorem summarizeBatch_three_urls_outcomes (validUrl : String → Bool)
    (proc : String → ProcOutcome) (u1 u2 u3 : String)
    (h1 : validUrl u1 = true) (h2 : validUrl u2 = false) (h3 : validUrl u3 = true) :
    batchSteps validUrl proc [u1, u2, u3] =
      [⟨(proc u1).toResult u1, true, some 1000⟩,
       ⟨invalidUrlOutcome u2, false, none⟩,
       ⟨(proc u3).toResult u3, true, some 1000⟩] ∧
    (invalidUrlOutcome u2).error = some ("Invalid URL format") ∧
    (batchSteps validUrl proc [u1, u2, u3]).map (fun s => s.outcome.url) = [u1, u2, u3] := by
  refine ⟨?_, rfl, ?_⟩
  · simp [batchSteps, h1, h2, h3]
  · simp [batchSteps, h1, h2, h3, ProcOutcome.toResult, invalidUrlOutcome]

/-- Witness for C7 on concrete URLs, with a `proc` that fails on the last
URL: three ordered outcomes, the middle one the invalid-URL outcome. -/
theorem summarizeBatch_three_urls_outcomes_witness :
    batchSteps (fun u => u ≠ "notaurl")
        (fun u => if u = "https://b.com" then ⟨"", ⟨"", "", "", ""⟩, some ("timeout"), some 3⟩
          else okOutcome ("s")) ["https://a.com", "notaurl", "https://b.com"] =
      [⟨ProcOutcome.toResult (okOutcome ("s")) "https://a.com", true, some 1000⟩,
       ⟨invalidUrlOutcome ("notaurl"), false, none⟩,
       ⟨ProcOutcome.toResult ⟨"", ⟨"", "", "", ""⟩, some ("timeout"), some 3⟩ "https://b.com",
         true, some 1000⟩] := by
  have h := summarizeBatch_three_urls_outcomes (fun u => u ≠ "notaurl")
    (fun u => if u = "https://b.com" then ⟨"", ⟨"", "", "", ""⟩, some ("timeout"), some 3⟩
      else okOutcome ("s")) "https://a.com" "notaurl" "https://b.com"
    (by decide) (by decide) (by decide)
  rw [h.1]
  rfl

/-! ## The `RateLimiter` (claim C1)

`RateLimiter` keeps a FIFO `queue` of pending closures, a `running` count
and `lastRequestTime`. `execute(fn)` pushes a closure and calls
`processQueue()`, which — when `running < maxConcurrent` and the queue is
nonempty — increments `running`, shifts one closure and invokes it. The
closure compares `now - lastRequestTime` with `minDelay`, possibly awaits a
timer for the difference, then sets `lastRequestTime = Date.now()`, runs
`fn`, and in its `finally` decrements `running` and calls `processQueue()`.

The single-threaded cooperative runtime is modelled as an agenda of timed
events processed in (time, registration order): an external `execute` call
(`enq`), the wake-up of a waiting closure's timer (`wake`), and the
settlement of a running operation (`settle`). Code between two suspension
points runs atomically, exactly as in the JavaScript event loop. Times and
durations are in ms; the process clock starts high enough that the initial
`lastRequestTime = 0` lies more than `minDelay` in the past, as it does in
real time (epoch milliseconds). -/

/-- Configuration of `new RateLimiter(maxConcurrent, minDelay)`. -/
structure RLConfig where
  maxConcurrent : Nat
  minDelay : Nat

/-- An agenda event: an external `execute(fn)` call for task `tid` whose
`fn` takes `dur` ms, a waiting task's timer firing, or a running task
settling (resolve/reject plus `finally`). -/
inductive AEvent where
  | enq (tid dur : Nat)
  | wake (tid dur : Nat)
  | settle
deriving DecidableEq, Repr

/-- State of the rate limiter plus its pending events. `dispatches` logs
`(taskId, instant)` in dispatch order, the instant being when
`lastRequestTime` is set just before `fn` runs. -/
structure RLState where
  queue : List (Nat × Nat)
  running : Nat
  lastRequestTime : Nat
  agenda : List (Nat × Nat × AEvent)
  nextSeq : Nat
  dispatches : List (Nat × Nat)
deriving Repr

/-- Register a future event (`setTimeout` / promise continuation). -/
def schedule (t : Nat) (ev : AEvent) (s : RLState) : RLState :=
  { s with agenda := (t, s.nextSeq, ev) :: s.agenda, nextSeq := s.nextSeq + 1 }

/-- Model of `this.lastRequestTime = Date.now();` followed by `await fn()`: record
the dispatch and schedule the settlement after `fn`'s duration. -/
def dispatchNow (t tid dur : Nat) (s : RLState) : RLState :=
  schedule (t + dur) .settle
    { s with lastRequestTime := t, dispatches := s.dispatches ++ [(tid, t)] }

/-- Body of the queued closure up to its first suspension: compare
`now - lastRequestTime` with `minDelay`; either sleep the difference or
dispatch immediately. -/
def invokeTask (cfg : RLConfig) (t tid dur : Nat) (s : RLState) : RLState :=
  if t - s.lastRequestTime < cfg.minDelay then
    schedule (t + (cfg.minDelay - (t - s.lastRequestTime))) (.wake tid dur) s
  else
    dispatchNow t tid dur s

/-- Model of `processQueue()`: dispatch at most one queued closure if concurrency
allows. -/
def processQueue (cfg : RLConfig) (t : Nat) (s : RLState) : RLState :=
  if cfg.maxConcurrent ≤ s.running then s
  else
    match s.queue with
    | [] => s
    | (tid, dur) :: rest =>
      invokeTask cfg t tid dur { s with running := s.running + 1, queue := rest }

/-- Handle one agenda event at its time `t`. -/
def handleEvent (cfg : RLConfig) (t : Nat) (ev : AEvent) (s : RLState) : RLState :=
  match ev with
  | .enq tid dur => processQueue cfg t { s with queue := s.queue ++ [(tid, dur)] }
  | .wake tid dur => dispatchNow t tid dur s
  | .settle => processQueue cfg t { s with running := s.running - 1 }

/-- Event order of the runtime: earlier time first; equal deadlines fire in
registration order. -/
def evLE (a b : Nat × Nat × AEvent) : Prop :=
  a.1 < b.1 ∨ (a.1 = b.1 ∧ a.2.1 ≤ b.2.1)

instance (a b : Nat × Nat × AEvent) : Decidable (evLE a b) := by
  unfold evLE; infer_instance

/-- Select the next event to run: the agenda's minimum in `evLE` order,
together with the remaining agenda. -/
def pickMin : List (Nat × Nat × AEvent) →
    Option ((Nat × Nat × AEvent) × List (Nat × Nat × AEvent))
  | [] => none
  | e :: es =>
    match pickMin es with
    | none => some (e, es)
    | some (m, rest) => if evLE e m then some (e, es) else some (m, e :: rest)

/-- Run the event loop for `fuel` steps (or until the agenda empties). -/
def runRL (cfg : RLConfig) : Nat → RLState → RLState
  | 0, s => s
  | fuel + 1, s =>
    match pickMin s.agenda with
    | none => s
    | some (e, rest) => runRL cfg fuel (handleEvent cfg e.1 e.2.2 { s with agenda := rest })

/-- Execute an enqueue pattern against a fresh `RateLimiter`: `pattern`
lists `(time, taskId, fnDuration)` of the external `execute` calls in call
order. Returns the `(taskId, dispatchInstant)` log. Every task gives rise
to at most three events, so the fuel suffices to drain the agenda. -/
def rateLimiterDispatches (cfg : RLConfig) (pattern : List (Nat × Nat × Nat)) :
    List (Nat × Nat) :=
  let init : RLState :=
    { queue := [], running := 0, lastRequestTime := 0,
      agenda := pattern.enum.map (fun p => (p.2.1, p.1, AEvent.enq p.2.2.1 p.2.2.2)),
      nextSeq := pattern.length, dispatches := [] }
  (runRL cfg (3 * pattern.length + 3) init).dispatches

/-- Consecutive dispatch instants at least `d` apart. -/
def minDelaySpaced (d : Nat) (ds : List (Nat × Nat)) : Prop :=
  List.Chain' (fun a b => a.2 + d ≤ b.2) ds

/-- Claim C1, counterexample: with the scheduler configuration of the source
(`new RateLimiter(2, 1000)`), the minimum-spacing property fails: enqueue a
first operation at t = 2000 and two operations together at t = 2100. The
first dispatches at 2000; the two waiters both read the stale
`lastRequestTime = 2000` before either updates it, sleep the same 900 ms,
and both dispatch at t = 3000 — two consecutive dispatches 0 ms apart. -/
theorem rateLimiter_minDelay_violated_two_waiters :
    rateLimiterDispatches ⟨2, 1000⟩ [(2000, 0, 50), (2100, 1, 50), (2100, 2, 50)] =
      [(0, 2000), (1, 3000), (2, 3000)] ∧
    ¬ minDelaySpaced 1000
      (rateLimiterDispatches ⟨2, 1000⟩ [(2000, 0, 50), (2100, 1, 50), (2100, 2, 50)]) := by
  have heq : rateLimiterDispatches ⟨2, 1000⟩ [(2000, 0, 50), (2100, 1, 50), (2100, 2, 50)] =
      [(0, 2000), (1, 3000), (2, 3000)] := by decide
  refine ⟨heq, ?_⟩
  rw [minDelaySpaced, heq]
  intro h
  obtain ⟨-, h2⟩ := List.chain'_cons.1 h
  obtain ⟨hbad, -⟩ := List.chain'_cons.1 h2
  simp at hbad

/-! ### The spacing invariant for `maxConcurrent = 1`

With `maxConcurrent = 1` at most one closure is past `processQueue` at any
instant, so no second closure can read a stale `lastRequestTime` while one
is sleeping; every dispatch then lands at least `minDelay` after the
previous one closing the race that `maxConcurrent = 2` exposes. -/

/-- Events that account for one running task: a pending wake-up timer or a
pending settlement. -/
def isActive : AEvent → Bool
  | .enq _ _ => false
  | .wake _ _ => true
  | .settle => true

/-- Number of running tasks accounted for by the agenda. -/
def activeCount (ag : List (Nat × Nat × AEvent)) : Nat :=
  ag.countP (fun e => isActive e.2.2)

/-- Invariant of the `maxConcurrent = 1` rate limiter, preserved by every
event: dispatches are spaced by `D`; `lastRequestTime` is the last
dispatch instant and no pending event lies before it; a pending wake-up
never fires before `lastRequestTime + D`; and `running` counts the pending
wake/settle events, of which there is at most one. -/
structure RLInv (D : Nat) (s : RLState) : Prop where
  chain : List.Chain' (fun a b : Nat × Nat => a.2 + D ≤ b.2) s.dispatches
  lastLe : ∀ t q ev, (t, q, ev) ∈ s.agenda → s.lastRequestTime ≤ t
  lastEq : ∀ d, s.dispatches.getLast? = some d → d.2 = s.lastRequestTime
  wakeGap : ∀ t q tid dur, (t, q, AEvent.wake tid dur) ∈ s.agenda →
    s.lastRequestTime + D ≤ t
  runCount : s.running = activeCount s.agenda
  runLe : s.running ≤ 1

/-- Appending a dispatch that respects the gap to the last one preserves
the spacing chain. -/
theorem chain_concat_dispatch {D : Nat} {ds : List (Nat × Nat)} {x : Nat × Nat}
    (h : List.Chain' (fun a b : Nat × Nat => a.2 + D ≤ b.2) ds)
    (hx : ∀ d, ds.getLast? = some d → d.2 + D ≤ x.2) :
    List.Chain' (fun a b : Nat × Nat => a.2 + D ≤ b.2) (ds ++ [x]) := by
  rw [List.chain'_append]
  refine ⟨h, List.chain'_singleton x, ?_⟩
  intro a ha y hy
  have hy' : x = y := by simpa using hy
  have ha' : ds.getLast? = some a := ha
  rw [← hy']
  exact hx a ha'

/-- An agenda with no active event accounts for no running task. -/
theorem activeCount_eq_zero {ag : List (Nat × Nat × AEvent)}
    (h : ∀ e ∈ ag, isActive e.2.2 = false) : activeCount ag = 0 := by
  rw [activeCount, List.countP_eq_zero]
  intro e he
  simp [h e he]

/-- The step `dispatchNow` preserves the invariant when the dispatch instant `t`
respects the gap after the last dispatch, nothing pending is active or lies
before `t`, and the one running slot is the dispatching task's. -/
theorem dispatchNow_inv (D t tid dur : Nat) (s : RLState)
    (hchain : List.Chain' (fun a b : Nat × Nat => a.2 + D ≤ b.2) s.dispatches)
    (_hlastEq : ∀ d, s.dispatches.getLast? = some d → d.2 = s.lastRequestTime)
    (hgap : ∀ d, s.dispatches.getLast? = some d → d.2 + D ≤ t)
    (hag : ∀ e ∈ s.agenda, t ≤ e.1)
    (hNoActive : ∀ e ∈ s.agenda, isActive e.2.2 = false)
    (hrun : s.running = 1) :
    RLInv D (dispatchNow t tid dur s) := by
  refine ⟨?_, ?_, ?_, ?_, ?_, ?_⟩
  · show List.Chain' (fun a b : Nat × Nat => a.2 + D ≤ b.2) (s.dispatches ++ [(tid, t)])
    exact chain_concat_dispatch hchain hgap
  · show ∀ t' q ev, (t', q, ev) ∈ (t + dur, s.nextSeq, AEvent.settle) :: s.agenda → t ≤ t'
    intro t' q ev hmem
    rcases List.mem_cons.1 hmem with heq | hmem'
    · have ht' : t' = t + dur := congrArg (fun p : Nat × Nat × AEvent => p.1) heq
      omega
    · exact hag _ hmem'
  · show ∀ d, (s.dispatches ++ [(tid, t)]).getLast? = some d → d.2 = t
    intro d hd
    rw [List.getLast?_concat] at hd
    cases hd
    rfl
  · show ∀ t' q tid' dur',
      (t', q, AEvent.wake tid' dur') ∈ (t + dur, s.nextSeq, AEvent.settle) :: s.agenda →
      t + D ≤ t'
    intro t' q tid' dur' hmem
    rcases List.mem_cons.1 hmem with heq | hmem'
    · have hcon := congrArg (fun p : Nat × Nat × AEvent => p.2.2) heq
      simp at hcon
    · have hfalse := hNoActive _ hmem'
      simp [isActive] at hfalse
  · show s.running = activeCount ((t + dur, s.nextSeq, AEvent.settle) :: s.agenda)
    have h0 : s.agenda.countP (fun e => isActive e.2.2) = 0 := activeCount_eq_zero hNoActive
    rw [activeCount, List.countP_cons, h0, hrun]
    rfl
  · show s.running ≤ 1
    omega

/-- The queued closure's body preserves the invariant when invoked at an
instant `t` not earlier than `lastRequestTime` or any pending event, with
nothing else active. -/
theorem invokeTask_inv (D t tid dur : Nat) (s : RLState)
    (hchain : List.Chain' (fun a b : Nat × Nat => a.2 + D ≤ b.2) s.dispatches)
    (hlastEq : ∀ d, s.dispatches.getLast? = some d → d.2 = s.lastRequestTime)
    (hag : ∀ e ∈ s.agenda, t ≤ e.1)
    (hNoActive : ∀ e ∈ s.agenda, isActive e.2.2 = false)
    (hrun : s.running = 1)
    (hlt : s.lastRequestTime ≤ t) :
    RLInv D (invokeTask ⟨1, D⟩ t tid dur s) := by
  show RLInv D (if t - s.lastRequestTime < D then
      schedule (t + (D - (t - s.lastRequestTime))) (.wake tid dur) s
    else dispatchNow t tid dur s)
  by_cases hwait : t - s.lastRequestTime < D
  · rw [if_pos hwait]
    refine ⟨hchain, ?_, hlastEq, ?_, ?_, ?_⟩
    · show ∀ t' q ev,
        (t', q, ev) ∈ (t + (D - (t - s.lastRequestTime)), s.nextSeq, AEvent.wake tid dur)
          :: s.agenda → s.lastRequestTime ≤ t'
      intro t' q ev hmem
      rcases List.mem_cons.1 hmem with heq | hmem'
      · have ht' : t' = t + (D - (t - s.lastRequestTime)) :=
          congrArg (fun p : Nat × Nat × AEvent => p.1) heq
        omega
      · have h2 : t ≤ t' := hag _ hmem'
        omega
    · show ∀ t' q tid' dur',
        (t', q, AEvent.wake tid' dur') ∈
          (t + (D - (t - s.lastRequestTime)), s.nextSeq, AEvent.wake tid dur) :: s.agenda →
        s.lastRequestTime + D ≤ t'
      intro t' q tid' dur' hmem
      rcases List.mem_cons.1 hmem with heq | hmem'
      · have ht' : t' = t + (D - (t - s.lastRequestTime)) :=
          congrArg (fun p : Nat × Nat × AEvent => p.1) heq
        omega
      · have hfalse := hNoActive _ hmem'
        simp [isActive] at hfalse
    · show s.running = activeCount
        ((t + (D - (t - s.lastRequestTime)), s.nextSeq, AEvent.wake tid dur) :: s.agenda)
      have h0 : s.agenda.countP (fun e => isActive e.2.2) = 0 := activeCount_eq_zero hNoActive
      rw [activeCount, List.countP_cons, h0, hrun]
      rfl
    · show s.running ≤ 1
      omega
  · rw [if_neg hwait]
    refine dispatchNow_inv D t tid dur s hchain hlastEq ?_ hag hNoActive hrun
    intro d hd
    have := hlastEq d hd
    omega

/-- The step `processQueue` preserves the invariant at any instant `t` not earlier
than `lastRequestTime` or any pending event. -/
theorem processQueue_inv (D t : Nat) (s : RLState)
    (hchain : List.Chain' (fun a b : Nat × Nat => a.2 + D ≤ b.2) s.dispatches)
    (hlastLe : ∀ t' q ev, (t', q, ev) ∈ s.agenda → s.lastRequestTime ≤ t')
    (hlastEq : ∀ d, s.dispatches.getLast? = some d → d.2 = s.lastRequestTime)
    (hwake : ∀ t' q tid dur, (t', q, AEvent.wake tid dur) ∈ s.agenda →
      s.lastRequestTime + D ≤ t')
    (hcount : s.running = activeCount s.agenda)
    (hrun : s.running ≤ 1)
    (hlt : s.lastRequestTime ≤ t)
    (hag : ∀ e ∈ s.agenda, t ≤ e.1) :
    RLInv D (processQueue ⟨1, D⟩ t s) := by
  show RLInv D (if 1 ≤ s.running then s else
    match s.queue with
    | [] => s
    | (tid, dur) :: rest =>
      invokeTask ⟨1, D⟩ t tid dur { s with running := s.running + 1, queue := rest })
  by_cases hbusy : 1 ≤ s.running
  · rw [if_pos hbusy]
    exact ⟨hchain, hlastLe, hlastEq, hwake, hcount, hrun⟩
  · rw [if_neg hbusy]
    have hzero : s.running = 0 := by omega
    have hNoActive : ∀ e ∈ s.agenda, isActive e.2.2 = false := by
      intro e he
      have h0 : s.agenda.countP (fun e => isActive e.2.2) = 0 := by
        rw [← activeCount, ← hcount, hzero]
      rw [List.countP_eq_zero] at h0
      simpa using h0 e he
    cases hq : s.queue with
    | nil => exact ⟨hchain, hlastLe, hlastEq, hwake, hcount, hrun⟩
    | cons hd tl =>
      obtain ⟨tid, dur⟩ := hd
      show RLInv D (invokeTask ⟨1, D⟩ t tid dur { s with running := s.running + 1, queue := tl })
      apply invokeTask_inv
      · exact hchain
      · exact hlastEq
      · exact hag
      · exact hNoActive
      · show s.running + 1 = 1
        omega
      · exact hlt

/-- Handling any event preserves the invariant, provided the event came off
the agenda and is not later than anything remaining. -/
theorem handleEvent_inv (D t seq : Nat) (ev : AEvent) (s : RLState)
    (rest : List (Nat × Nat × AEvent)) (hInv : RLInv D s)
    (hperm : List.Perm s.agenda ((t, seq, ev) :: rest))
    (hmin : ∀ e ∈ rest, t ≤ e.1) :
    RLInv D (handleEvent ⟨1, D⟩ t ev { s with agenda := rest }) := by
  have hmem : (t, seq, ev) ∈ s.agenda := hperm.symm.subset (List.mem_cons_self _ _)
  have hrestsub : ∀ e ∈ rest, e ∈ s.agenda := fun e he =>
    hperm.symm.subset (List.mem_cons_of_mem _ he)
  have hlt : s.lastRequestTime ≤ t := hInv.lastLe _ _ _ hmem
  have hcnt : activeCount s.agenda = activeCount rest + (if isActive ev then 1 else 0) := by
    rw [activeCount, List.Perm.countP_eq _ hperm, List.countP_cons, activeCount]
  cases ev with
  | enq tid dur =>
    show RLInv D (processQueue ⟨1, D⟩ t
      { s with agenda := rest, queue := s.queue ++ [(tid, dur)] })
    apply processQueue_inv
    · exact hInv.chain
    · intro t' q ev' hmem'
      exact hInv.lastLe _ _ _ (hrestsub _ hmem')
    · exact hInv.lastEq
    · intro t' q tid' dur' hmem'
      exact hInv.wakeGap _ _ _ _ (hrestsub _ hmem')
    · show s.running = activeCount rest
      have : activeCount s.agenda = activeCount rest := by
        rw [hcnt]
        simp [isActive]
      rw [← this]
      exact hInv.runCount
    · exact hInv.runLe
    · exact hlt
    · exact hmin
  | settle =>
    show RLInv D (processQueue ⟨1, D⟩ t
      { s with agenda := rest, running := s.running - 1 })
    have hone : s.running = activeCount rest + 1 := by
      rw [hInv.runCount, hcnt]
      simp [isActive]
    have hzero : activeCount rest = 0 := by
      have := hInv.runLe
      omega
    apply processQueue_inv
    · exact hInv.chain
    · intro t' q ev' hmem'
      exact hInv.lastLe _ _ _ (hrestsub _ hmem')
    · exact hInv.lastEq
    · intro t' q tid' dur' hmem'
      exact hInv.wakeGap _ _ _ _ (hrestsub _ hmem')
    · show s.running - 1 = activeCount rest
      omega
    · show s.running - 1 ≤ 1
      omega
    · exact hlt
    · exact hmin
  | wake tid dur =>
    show RLInv D (dispatchNow t tid dur { s with agenda := rest })
    have hone : s.running = activeCount rest + 1 := by
      rw [hInv.runCount, hcnt]
      simp [isActive]
    have hzero : activeCount rest = 0 := by
      have := hInv.runLe
      omega
    have hNoActive : ∀ e ∈ rest, isActive e.2.2 = false := by
      intro e he
      have h0 : rest.countP (fun e => isActive e.2.2) = 0 := by
        rw [← activeCount, hzero]
      rw [List.countP_eq_zero] at h0
      simpa using h0 e he
    apply dispatchNow_inv
    · exact hInv.chain
    · exact hInv.lastEq
    · intro d hd
      have hgap := hInv.wakeGap _ _ _ _ hmem
      have := hInv.lastEq d hd
      omega
    · exact hmin
    · exact hNoActive
    · show s.running = 1
      omega

/-- Selection returns `none` only on the empty agenda. -/
theorem pickMin_none : ∀ l : List (Nat × Nat × AEvent), pickMin l = none → l = [] := by
  intro l h
  cases l with
  | nil => rfl
  | cons a as =>
    rw [pickMin] at h
    cases hp : pickMin as with
    | none =>
      rw [hp] at h
      exact Option.noConfusion h
    | some pr =>
      obtain ⟨m, rest⟩ := pr
      rw [hp] at h
      change (if evLE a m then some (a, as) else some (m, a :: rest)) = none at h
      by_cases hle : evLE a m
      · rw [if_pos hle] at h; cases h
      · rw [if_neg hle] at h; cases h

/-- The selected event together with the remainder is a permutation of the
agenda. -/
theorem pickMin_perm : ∀ (l : List (Nat × Nat × AEvent)) (e : Nat × Nat × AEvent)
    (rest : List (Nat × Nat × AEvent)), pickMin l = some (e, rest) →
    List.Perm l (e :: rest) := by
  intro l
  induction l with
  | nil => intro e rest h; cases h
  | cons a as ih =>
    intro e rest h
    rw [pickMin] at h
    cases hp : pickMin as with
    | none =>
      rw [hp] at h
      change some (a, as) = some (e, rest) at h
      cases h
      exact List.Perm.refl _
    | some pr =>
      obtain ⟨m, rest'⟩ := pr
      rw [hp] at h
      change (if evLE a m then some (a, as) else some (m, a :: rest')) = some (e, rest) at h
      by_cases hle : evLE a m
      · rw [if_pos hle] at h
        cases h
        exact List.Perm.refl _
      · rw [if_neg hle] at h
        cases h
        exact ((ih e rest' hp).cons a).trans (List.Perm.swap e a rest')

/-- The selected event is no later than anything remaining. -/
theorem pickMin_min : ∀ (l : List (Nat × Nat × AEvent)) (e : Nat × Nat × AEvent)
    (rest : List (Nat × Nat × AEvent)), pickMin l = some (e, rest) →
    ∀ x ∈ rest, e.1 ≤ x.1 := by
  intro l
  induction l with
  | nil => intro e rest h; cases h
  | cons a as ih =>
    intro e rest h
    rw [pickMin] at h
    cases hp : pickMin as with
    | none =>
      rw [hp] at h
      change some (a, as) = some (e, rest) at h
      cases h
      rw [pickMin_none as hp]
      intro x hx
      cases hx
    | some pr =>
      obtain ⟨m, rest'⟩ := pr
      rw [hp] at h
      change (if evLE a m then some (a, as) else some (m, a :: rest')) = some (e, rest) at h
      by_cases hle : evLE a m
      · rw [if_pos hle] at h
        cases h
        intro x hx
        have hmem : x = m ∨ x ∈ rest' :=
          List.mem_cons.1 ((pickMin_perm as m rest' hp).subset hx)
        have ham : a.1 ≤ m.1 := by
          unfold evLE at hle
          omega
        rcases hmem with rfl | hx'
        · exact ham
        · exact le_trans ham (ih m rest' hp x hx')
      · rw [if_neg hle] at h
        cases h
        intro x hx
        rcases List.mem_cons.1 hx with rfl | hx'
        · unfold evLE at hle
          omega
        · exact ih e rest' hp x hx'

/-- The event loop preserves the invariant for any fuel. -/
theorem runRL_inv (D : Nat) : ∀ (fuel : Nat) (s : RLState),
    RLInv D s → RLInv D (runRL ⟨1, D⟩ fuel s) := by
  intro fuel
  induction fuel with
  | zero => intro s h; exact h
  | succ fuel ih =>
    intro s h
    rw [runRL]
    cases hp : pickMin s.agenda with
    | none => exact h
    | some pr =>
      obtain ⟨e, rest⟩ := pr
      exact ih _ (handleEvent_inv D e.1 e.2.1 e.2.2 s rest h
        (pickMin_perm s.agenda e rest hp) (pickMin_min s.agenda e rest hp))

/-- The fresh rate limiter with only `enq` events pending satisfies the
invariant. -/
theorem init_inv (D : Nat) (pattern : List (Nat × Nat × Nat)) :
    RLInv D { queue := [], running := 0, lastRequestTime := 0,
              agenda := pattern.enum.map
                (fun p => (p.2.1, p.1, AEvent.enq p.2.2.1 p.2.2.2)),
              nextSeq := pattern.length, dispatches := [] } := by
  refine ⟨List.chain'_nil, ?_, ?_, ?_, ?_, ?_⟩
  · intro t q ev _
    exact Nat.zero_le t
  · intro d hd
    cases hd
  · intro t q tid dur hmem
    obtain ⟨p, -, hp⟩ := List.mem_map.1 hmem
    have := congrArg (fun e : Nat × Nat × AEvent => e.2.2) hp
    simp at this
  · symm
    apply activeCount_eq_zero
    intro e he
    obtain ⟨p, -, hp⟩ := List.mem_map.1 he
    rw [← hp]
    rfl
  · exact Nat.zero_le 1

/-- Claim C1, amended: the minimum-spacing guarantee does hold once at most
one operation can sit between `processQueue` and its dispatch: with
`maxConcurrent = 1` and `minDelay = 1000`, for every enqueue pattern
(arbitrary call instants, including simultaneous ones, and arbitrary
operation durations) any two consecutively dispatched operations start at
least `minDelay` apart. With the source's `maxConcurrent = 2` the property
fails (see the counterexample): two waiters can read the same stale
`lastRequestTime` and dispatch simultaneously. -/
theorem rateLimiter_minDelay_spaced_maxConcurrent_one (pattern : List (Nat × Nat × Nat)) :
    minDelaySpaced 1000 (rateLimiterDispatches ⟨1, 1000⟩ pattern) :=
  (runRL_inv 1000 (3 * pattern.length + 3) _ (init_inv 1000 pattern)).chain

end AgentScrape
